import Mathlib

/-!
Verification of the kn-bpe-tokenizer repository.

The repository ships two driver files, `app.py` (visualization) and
`train.py` (training driver).  The `KannadaBPETokenizer` class itself
(file `tokenizer.py`) is referenced by both drivers but its source is not
part of the repository snapshot, so the tokenizer core (segmenter, base
alphabet, merge learner, encoder, decoder, vocabulary store) is modelled
from the specification; the visualization logic of `app.py` is embedded
from its source.

Texts are modelled as lists of atomic units (`List Nat`): the spec fixes
one atomic-unit granularity (bytes or codepoints) with a Base Alphabet
that is total and injective over that space, so an atomic unit is
identified with its base id and a tokenizer with base size `B` operates
on units `< B`.
-/

set_option autoImplicit false

namespace KnBpe

/-- Modelled from the spec: a Merge Rule is a triple
`(left_id, right_id, new_id)`; rules are totally ordered by rank
(position in the merge list). `tokenizer.py` is missing from the
snapshot, so the rule representation follows spec section 3. -/
structure MergeRule where
  left : Nat
  right : Nat
  newId : Nat
deriving Repr, DecidableEq

/-- Modelled from the spec: the trained artifact is the Base Alphabet
size together with the ordered Merge Table (spec sections 2 and 3);
the id-to-text mapping is derived from these. -/
structure Tokenizer where
  base : Nat
  merges : List MergeRule
deriving Repr, DecidableEq

/-- Vocabulary size: base alphabet plus one id per merge rule. -/
def Tokenizer.size (t : Tokenizer) : Nat := t.base + t.merges.length

/-- Structural validation of a merge table starting at next id `n`:
rank `r` (counting from the head) must introduce `newId = n + r` and
both constituents must already exist (spec section 3: contiguous ids,
no forward references). -/
def checkFrom : Nat → List MergeRule → Bool
  | _, [] => true
  | n, m :: rest =>
    decide (m.newId = n) && decide (m.left < n) && decide (m.right < n)
      && checkFrom (n + 1) rest

/-- Well-formedness of a tokenizer: its merge table validates against
its base alphabet size. -/
def Tokenizer.wf (t : Tokenizer) : Prop := checkFrom t.base t.merges = true

/-- Extending an id-to-text mapping with one merge rule: the new id
decodes to the concatenation of its constituents' texts. -/
def extendText (f : Nat → List Nat) (m : MergeRule) : Nat → List Nat :=
  fun i => if i = m.newId then f m.left ++ f m.right else f i

/-- Fold a merge table (in rank order) over an id-to-text mapping. -/
def textFunAux (f : Nat → List Nat) : List MergeRule → Nat → List Nat
  | [] => f
  | m :: rest => textFunAux (extendText f m) rest

/-- Modelled from the spec: the id-to-text mapping of the vocabulary.
A base id decodes to its own atomic unit (the Base Alphabet is the
identity on the atomic-unit space); each merge id decodes to the
concatenation of its constituents. -/
def Tokenizer.idText (t : Tokenizer) (i : Nat) : List Nat :=
  textFunAux (fun u => [u]) t.merges i

/-- Modelled from the spec: `decode(ids)` looks up each id's stored
text and concatenates (spec section 4.4). -/
def Tokenizer.decode (t : Tokenizer) (ids : List Nat) : List Nat :=
  (ids.map t.idText).flatten

/-! ### Pattern Segmenter (modelled from the spec, section 4.1) -/

/-- Modelled from the spec: script-aware character classification used
by the fixed segmentation pattern.  The pattern itself lives in the
missing `tokenizer.py`; the spec requires a fixed pattern that splits
at natural token boundaries (whitespace, script changes).  Class 0 is
whitespace, class 1 the Kannada block, class 2 everything else. -/
def unitClass (u : Nat) : Nat :=
  if u = 32 ∨ u = 9 ∨ u = 10 ∨ u = 13 then 0
  else if 0x0C80 ≤ u ∧ u ≤ 0x0CFF then 1
  else 2

/-- Prepend one unit to a chunk list: extend the first chunk when the
unit is of the same class as its first unit, otherwise open a new
chunk. -/
def consChunk (a : Nat) : List (List Nat) → List (List Nat)
  | [] => [[a]]
  | [] :: cs => [a] :: [] :: cs
  | (b :: c) :: cs =>
    if unitClass a = unitClass b then (a :: b :: c) :: cs
    else [a] :: (b :: c) :: cs

/-- Modelled from the spec: `segment(text)` splits text into maximal
runs of units of the same class; chunks are ordered, non-overlapping
and exhaustive (spec section 4.1). -/
def segment : List Nat → List (List Nat)
  | [] => []
  | a :: rest => consChunk a (segment rest)

/-! ### Encoder (modelled from the spec, section 4.4) -/

/-- Adjacent pairs of a working symbol sequence. -/
def pairsOf : List Nat → List (Nat × Nat)
  | a :: b :: rest => (a, b) :: pairsOf (b :: rest)
  | _ => []

/-- Whether a rule's pair occurs adjacently in the sequence. -/
def hasPair (m : MergeRule) (ids : List Nat) : Bool :=
  (pairsOf ids).contains (m.left, m.right)

/-- The matching rule of lowest rank (the merge table is in rank
order, so the first match is the lowest-ranked one). -/
def findRule (merges : List MergeRule) (ids : List Nat) : Option MergeRule :=
  merges.find? (fun m => hasPair m ids)

/-- Replace all non-overlapping occurrences of the rule's pair,
left to right, by the rule's new id (spec sections 4.3d and 4.4). -/
def applyMerge (m : MergeRule) : List Nat → List Nat
  | a :: b :: rest =>
    if a = m.left ∧ b = m.right then m.newId :: applyMerge m rest
    else a :: applyMerge m (b :: rest)
  | other => other

/-- Modelled from the spec: the encoder's merge loop. Repeatedly apply
the lowest-ranked rule whose pair occurs, until none matches.  Each
applied rule shortens the sequence, so a fuel of the sequence length
reaches the fixpoint. -/
def bpeLoop (merges : List MergeRule) : Nat → List Nat → List Nat
  | 0, ids => ids
  | fuel + 1, ids =>
    match findRule merges ids with
    | none => ids
    | some m => bpeLoop merges fuel (applyMerge m ids)

/-- Modelled from the spec: `_apply_bpe(chunk)` / `encode_chunk`:
convert the chunk to base ids (the identity on atomic units) and run
the merge loop to saturation. -/
def Tokenizer.applyBpe (t : Tokenizer) (chunk : List Nat) : List Nat :=
  bpeLoop t.merges chunk.length chunk

/-- Concatenate per-chunk encodings in chunk order. -/
def encodeChunks (t : Tokenizer) : List (List Nat) → List Nat
  | [] => []
  | c :: cs => t.applyBpe c ++ encodeChunks t cs

/-- Modelled from the spec: `encode(text)`: segment, encode each chunk,
concatenate (spec section 4.4). -/
def Tokenizer.encode (t : Tokenizer) (text : List Nat) : List Nat :=
  encodeChunks t (segment text)

/-- A concrete tokenizer with byte-sized base alphabet and a single
merge rule folding units 97 and 98 into id 256; used as evaluation
point for theorems with hypotheses. -/
def tokA : Tokenizer := ⟨256, [⟨97, 98, 256⟩]⟩

/-! ### Merge Learner (modelled from the spec, section 4.3) -/

/-- Total frequency of an adjacent pair across all chunks' current
working sequences. -/
def countPair (chunks : List (List Nat)) (p : Nat × Nat) : Nat :=
  (chunks.map fun c => (pairsOf c).count p).sum

/-- All adjacent pairs occurring in any chunk (with multiplicity). -/
def allPairs (chunks : List (List Nat)) : List (Nat × Nat) :=
  (chunks.map pairsOf).flatten

/-- Modelled from the spec: the deterministic selection order. A pair
is strictly better when its frequency is higher; on equal frequency
the numerically smaller pair wins (the spec leaves the tie-break open
but requires a fixed, documented, deterministic one; this model fixes
lexicographic order on the pair). -/
def betterPair (chunks : List (List Nat)) (p q : Nat × Nat) : Bool :=
  decide (countPair chunks q < countPair chunks p ∨
    (countPair chunks p = countPair chunks q ∧
      (p.1 < q.1 ∨ (p.1 = q.1 ∧ p.2 < q.2))))

/-- Fold selecting the best candidate pair. -/
def pickBest (chunks : List (List Nat)) :
    Option (Nat × Nat) → List (Nat × Nat) → Option (Nat × Nat)
  | best, [] => best
  | none, p :: rest => pickBest chunks (some p) rest
  | some q, p :: rest =>
    pickBest chunks (some (if betterPair chunks p q then p else q)) rest

/-- Modelled from the spec: select the pair with maximum frequency
under the fixed tie-break; `none` when no adjacent pair exists. -/
def bestPair (chunks : List (List Nat)) : Option (Nat × Nat) :=
  pickBest chunks none (allPairs chunks)

/-- Modelled from the spec: the training loop (spec section 4.3,
step 2). Each iteration counts pair frequencies, stops at saturation
(no pair occurs more than once), otherwise appends one merge rule with
the next sequential id and rewrites every chunk. The fuel is the
number of merges still allowed, so the loop runs until the vocabulary
reaches the target size or saturation. -/
def trainLoop (base : Nat) : Nat → List (List Nat) → List MergeRule →
    List (List Nat) × List MergeRule
  | 0, chunks, acc => (chunks, acc)
  | fuel + 1, chunks, acc =>
    match bestPair chunks with
    | none => (chunks, acc)
    | some p =>
      if countPair chunks p ≤ 1 then (chunks, acc)
      else
        trainLoop base fuel
          (chunks.map (applyMerge ⟨p.1, p.2, base + acc.length⟩))
          (acc ++ [⟨p.1, p.2, base + acc.length⟩])

/-- Configuration errors reported before training starts. -/
inductive ConfigError where
  | vocabTooSmall
deriving Repr, DecidableEq

/-- Modelled from the spec: full training result, final chunk state
included (used to state the saturation condition).  A target size
below the base alphabet is a configuration error, reported rather than
clamped (spec section 4.3, failure modes). -/
def trainFull (base : Nat) (corpus : List Nat) (vocabSize : Nat) :
    Except ConfigError (List (List Nat) × List MergeRule) :=
  if vocabSize < base then .error .vocabTooSmall
  else .ok (trainLoop base (vocabSize - base) (segment corpus) [])

/-- Modelled from the spec: `train(corpus_text, vocab_size)` returns
the trained tokenizer. -/
def train (base : Nat) (corpus : List Nat) (vocabSize : Nat) :
    Except ConfigError Tokenizer :=
  (trainFull base corpus vocabSize).map fun st => ⟨base, st.2⟩

/-- A tiny training corpus over a 4-symbol base alphabet, used as
evaluation point for the training theorems. -/
def corpusB : List Nat := [1, 1, 2, 1, 1, 3]

/-- The tokenizer obtained by training on `corpusB` with target size 5:
one merge folding the doubled symbol 1 into id 4. -/
def tokB : Tokenizer := ⟨4, [⟨1, 1, 4⟩]⟩

/-! ### Vocabulary Store (modelled from the spec, sections 4.5, 6) -/

/-- Modelled from the spec: the serialized artifact: the id-to-text
mapping for every id `0..size-1` plus the ordered merge rules
(spec section 6, vocabulary artifact). -/
structure Artifact where
  base : Nat
  vocabEntries : List (Nat × List Nat)
  mergeEntries : List (Nat × Nat × Nat)
deriving Repr, DecidableEq

/-- The two distinguishable load failure conditions
(spec section 7, artifact errors). -/
inductive LoadError where
  | notFound
  | corrupt
deriving Repr, DecidableEq

/-- Modelled from the spec: `save_vocab` writes the id-to-text mapping
in id order together with the merge rules in rank order. -/
def saveVocab (t : Tokenizer) : Artifact :=
  ⟨t.base, (List.range t.size).map fun i => (i, t.idText i),
    t.merges.map fun m => (m.left, m.right, m.newId)⟩

/-- The merge table described by an artifact. -/
def Artifact.toMerges (a : Artifact) : List MergeRule :=
  a.mergeEntries.map fun e => ⟨e.1, e.2.1, e.2.2⟩

/-- Structural validation of an artifact: merge rules satisfy the
contiguous-id / no-forward-reference invariants, and the stored
id-to-text table is exactly the one the merge table induces over the
contiguous id space. -/
def Artifact.valid (a : Artifact) : Bool :=
  checkFrom a.base a.toMerges &&
    decide (a.vocabEntries =
      (List.range (Tokenizer.mk a.base a.toMerges).size).map
        fun i => (i, (Tokenizer.mk a.base a.toMerges).idText i))

/-- Modelled from the spec: parse and validate an artifact's content;
invalid content is a distinct corrupt-artifact condition. -/
def loadArtifact (a : Artifact) : Except LoadError Tokenizer :=
  if a.valid then .ok ⟨a.base, a.toMerges⟩ else .error .corrupt

/-- Modelled from the spec: `load_vocab(path)` against a file system
modelled as a partial map from paths to artifact contents; a missing
file is the distinct not-found condition (caught as
`FileNotFoundError` by the driver in `app.py`). -/
def loadVocabFrom (fs : String → Option Artifact) (path : String) :
    Except LoadError Tokenizer :=
  match fs path with
  | none => .error .notFound
  | some a => loadArtifact a

/-! ### Visualization layer, embedded from `app.py` -/

/-- The color palette of `app.py` (lines 11-16). -/
def COLORS : List String :=
  ["#FFB3BA", "#FFDFBA", "#FFFFBA", "#BAFFC9", "#BAE1FF",
   "#FFB3E6", "#E6B3FF", "#FFE6B3", "#B3FFE6", "#B3E6FF",
   "#FFD1DC", "#FFE4B5", "#E6FFB3", "#B3FFF0", "#D1B3FF",
   "#FFCCE6", "#FFCCB3", "#FFFFCC", "#CCFFE6", "#CCE6FF"]

/-- Whitespace atomic units, for the `text.strip()` test of `app.py`
line 21.  Python's `str.strip()` removes every codepoint whose
`str.isspace()` holds: TAB through CR (U+0009-U+000D), the
information separators U+001C-U+001F, SPACE, NEL (U+0085), NBSP
(U+00A0), OGHAM SPACE MARK (U+1680), the typographic spaces
U+2000-U+200A, LINE SEPARATOR (U+2028), PARAGRAPH SEPARATOR (U+2029),
NARROW NBSP (U+202F), MEDIUM MATHEMATICAL SPACE (U+205F) and
IDEOGRAPHIC SPACE (U+3000). -/
def isSpaceUnit (u : Nat) : Bool :=
  (9 ≤ u && u ≤ 13) || (28 ≤ u && u ≤ 31) || u = 32 || u = 0x85 || u = 0xA0 ||
    u = 0x1680 || (0x2000 ≤ u && u ≤ 0x200A) || u = 0x2028 || u = 0x2029 ||
    u = 0x202F || u = 0x205F || u = 0x3000

/-- Python's `text.strip()`: drop leading and trailing whitespace. -/
def pyStrip (s : List Nat) : List Nat :=
  ((s.dropWhile isSpaceUnit).reverse.dropWhile isSpaceUnit).reverse

/-- The color-assignment loop of `app.py` lines 36-40: walk the token
ids; the first occurrence of each id appends the entry
`(id, COLORS[color_idx % len(COLORS)])` and increments `color_idx`;
repeated ids are skipped. -/
def assignColors : List Nat → List (Nat × String) → Nat → List (Nat × String)
  | [], acc, _ => acc
  | tid :: rest, acc, cidx =>
    if (acc.lookup tid).isSome then assignColors rest acc cidx
    else
      assignColors rest
        (acc ++ [(tid, COLORS.getD (cidx % COLORS.length) "")]) (cidx + 1)

/-- The `token_id_to_color` mapping built by `tokenize_and_visualize`
(`app.py` lines 31-40). -/
def tokenIdToColor (ids : List Nat) : List (Nat × String) :=
  assignColors ids [] 0

/-- The distinct token ids of a sequence, each kept at its first
occurrence, skipping ids already seen (the `unique_token_ids` list of
`app.py`). -/
def uniqueSeen (seen : List Nat) : List Nat → List Nat
  | [] => []
  | t :: rest =>
    if t ∈ seen then uniqueSeen seen rest else t :: uniqueSeen (t :: seen) rest

/-- Distinct token ids in order of first occurrence. -/
def uniqueOrder (ids : List Nat) : List Nat := uniqueSeen [] ids

/-- Explicit cumulative color list: the id at position `i` of the
distinct-id list is paired with `COLORS[(off + i) % len(COLORS)]`. -/
def colorsFor : Nat → List Nat → List (Nat × String)
  | _, [] => []
  | off, k :: ks =>
    (k, COLORS.getD (off % COLORS.length) "") :: colorsFor (off + 1) ks

/-- The gray placeholder returned for the tokens panel on blank input
(`app.py` line 23). -/
def placeholderTokens : String :=
  "<p style=\x27color: gray; font-size: 16px;\x27>Enter some Kannada text to tokenize...</p>"

/-- The gray placeholder returned for the count panel on blank input
(`app.py` line 24). -/
def placeholderCount : String :=
  "<p style=\x27color: gray;\x27>Token count will appear here</p>"

/-- The gray placeholder returned for the ids panel on blank input
(`app.py` line 25). -/
def placeholderIds : String :=
  "<p style=\x27color: gray;\x27>Token IDs will appear here</p>"

/-- One colored token span (`app.py` lines 57-64; attributes beyond
index, id, text and color are elided). -/
def renderSpan (idx tid : Nat) (ttext color : String) : String :=
  "<span class=\"token-span\" data-token-idx=\"" ++ toString idx ++
    "\" style=\"background-color: " ++ color ++ ";\" title=\"Token ID: " ++
    toString tid ++ "\">" ++ ttext ++ "</span>"

/-- One row of the token-id table (`app.py` lines 103-110). -/
def renderRow (idx tid : Nat) (ttext color : String) : String :=
  "<tr><td>" ++ toString idx ++ "</td><td>" ++ toString tid ++ "</td><td>" ++
    ttext ++ "</td><td>" ++ color ++ "</td></tr>"

/-- Embedded from `app.py` lines 19-115, `tokenize_and_visualize`:
blank input short-circuits to the three gray placeholders without
touching the tokenizer; otherwise the text is encoded, colors are
assigned per unique token id, and the per-chunk token stream
(`re.findall` + `_apply_bpe`) is rendered as spans, a count banner and
a table. -/
def tokenize_and_visualize (t : Tokenizer) (text : List Nat) :
    String × String × String :=
  if (pyStrip text).isEmpty then
    (placeholderTokens, placeholderCount, placeholderIds)
  else
    let tokenIds := t.encode text
    let colorMap := tokenIdToColor tokenIds
    let chunkTokens := ((segment text).map t.applyBpe).flatten
    let info := chunkTokens.enum
    let spans := info.map fun pr =>
      renderSpan pr.1 pr.2 (toString (t.idText pr.2))
        ((colorMap.lookup pr.2).getD "")
    let rows := info.map fun pr =>
      renderRow pr.1 pr.2 (toString (t.idText pr.2))
        ((colorMap.lookup pr.2).getD "")
    ("<div>" ++ String.intercalate "" spans ++ "</div>",
      "<h2>" ++ toString tokenIds.length ++ "</h2><p>" ++
        toString (uniqueOrder tokenIds).length ++ " Unique Tokens</p>",
      "<table>" ++ String.intercalate "" rows ++ "</table>")

/-! ### Lemmas: segmentation -/

theorem consChunk_flatten (a : Nat) (cs : List (List Nat)) :
    (consChunk a cs).flatten = a :: cs.flatten := by
  match cs with
  | [] => rfl
  | [] :: cs => rfl
  | (b :: c) :: cs =>
    simp only [consChunk]
    split <;> simp

theorem segment_flatten (l : List Nat) : (segment l).flatten = l := by
  induction l with
  | nil => rfl
  | cons a rest ih => rw [segment, consChunk_flatten, ih]

theorem consChunk_ne_nil (a : Nat) (cs : List (List Nat))
    (h : ∀ c ∈ cs, c ≠ []) : ∀ c ∈ consChunk a cs, c ≠ [] := by
  match cs with
  | [] => intro c hc; simp only [consChunk, List.mem_singleton] at hc; simp [hc]
  | [] :: cs => exact absurd rfl (h [] (by simp))
  | (b :: c0) :: cs =>
    intro c hc
    simp only [consChunk] at hc
    split at hc
    · rcases List.mem_cons.mp hc with rfl | hc'
      · simp
      · exact h c (List.mem_cons_of_mem _ hc')
    · rcases List.mem_cons.mp hc with rfl | hc'
      · simp
      · exact h c hc'

theorem segment_ne_nil (l : List Nat) : ∀ c ∈ segment l, c ≠ [] := by
  induction l with
  | nil => intro c hc; cases hc
  | cons a rest ih => exact consChunk_ne_nil a (segment rest) ih

/-! ### Lemmas: the id-to-text mapping of a well-formed merge table -/

theorem checkFrom_cons {n : Nat} {m : MergeRule} {rest : List MergeRule} :
    checkFrom n (m :: rest) = true ↔
      m.newId = n ∧ m.left < n ∧ m.right < n ∧ checkFrom (n + 1) rest = true := by
  simp [checkFrom, Bool.and_eq_true, and_assoc]

theorem textFunAux_stable (merges : List MergeRule) :
    ∀ (f : Nat → List Nat) (n i : Nat), checkFrom n merges = true → i < n →
      textFunAux f merges i = f i := by
  induction merges with
  | nil => intro f n i _ _; rfl
  | cons m rest ih =>
    intro f n i hc hi
    rcases checkFrom_cons.mp hc with ⟨hid, _, _, hrest⟩
    have h1 : textFunAux f (m :: rest) i = textFunAux (extendText f m) rest i := rfl
    rw [h1, ih _ (n + 1) i hrest (by omega)]
    simp only [extendText]
    rw [if_neg (by omega)]

theorem textFunAux_rule (merges : List MergeRule) :
    ∀ (f : Nat → List Nat) (n : Nat) (m : MergeRule), checkFrom n merges = true →
      m ∈ merges →
      textFunAux f merges m.newId =
        textFunAux f merges m.left ++ textFunAux f merges m.right := by
  induction merges with
  | nil => intro _ _ _ _ h; cases h
  | cons m0 rest ih =>
    intro f n m hc hm
    rcases checkFrom_cons.mp hc with ⟨hid, hl, hr, hrest⟩
    have heq : ∀ j, textFunAux f (m0 :: rest) j = textFunAux (extendText f m0) rest j :=
      fun _ => rfl
    rcases List.mem_cons.mp hm with rfl | hm'
    · rw [heq, heq, heq,
        textFunAux_stable rest _ (n + 1) m.newId hrest (by omega),
        textFunAux_stable rest _ (n + 1) m.left hrest (by omega),
        textFunAux_stable rest _ (n + 1) m.right hrest (by omega)]
      simp only [extendText]
      rw [if_pos trivial, if_neg (by omega), if_neg (by omega)]
    · rw [heq, heq, heq]
      exact ih (extendText f m0) (n + 1) m hrest hm'

theorem checkFrom_bounds (merges : List MergeRule) :
    ∀ (n : Nat) (m : MergeRule), checkFrom n merges = true → m ∈ merges →
      n ≤ m.newId ∧ m.newId < n + merges.length ∧
        m.left < m.newId ∧ m.right < m.newId := by
  induction merges with
  | nil => intro _ _ _ h; cases h
  | cons m0 rest ih =>
    intro n m hc hm
    rcases checkFrom_cons.mp hc with ⟨hid, hl, hr, hrest⟩
    rcases List.mem_cons.mp hm with rfl | hm'
    · simp only [List.length_cons]; omega
    · have := ih (n + 1) m hrest hm'
      simp only [List.length_cons]; omega

/-! ### Lemmas: decoding is invariant under merge application -/

theorem decode_cons (t : Tokenizer) (a : Nat) (ids : List Nat) :
    t.decode (a :: ids) = t.idText a ++ t.decode ids := by
  simp [Tokenizer.decode]

theorem decode_append (t : Tokenizer) (l₁ l₂ : List Nat) :
    t.decode (l₁ ++ l₂) = t.decode l₁ ++ t.decode l₂ := by
  simp [Tokenizer.decode]

theorem decode_applyMerge (t : Tokenizer) (m : MergeRule)
    (key : t.idText m.newId = t.idText m.left ++ t.idText m.right) :
    ∀ ids, t.decode (applyMerge m ids) = t.decode ids
  | [] => rfl
  | [_] => rfl
  | a :: b :: rest => by
    by_cases h : a = m.left ∧ b = m.right
    · rw [show applyMerge m (a :: b :: rest) = m.newId :: applyMerge m rest from by
        rw [applyMerge, if_pos h]]
      rw [decode_cons, decode_cons, decode_cons,
        decode_applyMerge t m key rest, key, h.1, h.2, List.append_assoc]
    · rw [show applyMerge m (a :: b :: rest) = a :: applyMerge m (b :: rest) from by
        rw [applyMerge, if_neg h]]
      rw [decode_cons, decode_cons, decode_applyMerge t m key (b :: rest), decode_cons]

theorem decode_bpeLoop (t : Tokenizer) (hwf : t.wf) :
    ∀ (fuel : Nat) (ids : List Nat), t.decode (bpeLoop t.merges fuel ids) = t.decode ids := by
  intro fuel
  induction fuel with
  | zero => intro ids; rfl
  | succ fuel ih =>
    intro ids
    rw [bpeLoop]
    cases hf : findRule t.merges ids with
    | none => rfl
    | some m =>
      have hm : m ∈ t.merges := List.mem_of_find?_eq_some (by simpa [findRule] using hf)
      rw [ih, decode_applyMerge t m (textFunAux_rule t.merges _ t.base m hwf hm)]

theorem flatten_map_singleton (l : List Nat) : (l.map (fun u => [u])).flatten = l := by
  induction l <;> simp_all

theorem decode_of_units_lt (t : Tokenizer) (hwf : t.wf) (c : List Nat)
    (hc : ∀ u ∈ c, u < t.base) : t.decode c = c := by
  unfold Tokenizer.decode
  have hmap : c.map t.idText = c.map (fun u => [u]) :=
    List.map_congr_left fun u hu =>
      textFunAux_stable t.merges _ t.base u hwf (hc u hu)
  rw [hmap, flatten_map_singleton]

theorem decode_encodeChunks (t : Tokenizer) (hwf : t.wf) :
    ∀ cs : List (List Nat), (∀ c ∈ cs, ∀ u ∈ c, u < t.base) →
      t.decode (encodeChunks t cs) = cs.flatten := by
  intro cs
  induction cs with
  | nil => intro _; rfl
  | cons c cs ih =>
    intro h
    rw [encodeChunks, decode_append,
      ih fun c' hc' => h c' (List.mem_cons_of_mem _ hc')]
    have hc : t.decode (t.applyBpe c) = c := by
      rw [Tokenizer.applyBpe, decode_bpeLoop t hwf,
        decode_of_units_lt t hwf c (h c (List.mem_cons_self c cs))]
    rw [hc, List.flatten_cons]

theorem encodeChunks_eq_flatten (t : Tokenizer) :
    ∀ cs : List (List Nat), encodeChunks t cs = (cs.map t.applyBpe).flatten
  | [] => rfl
  | c :: cs => by
    rw [encodeChunks, encodeChunks_eq_flatten t cs]
    simp

theorem mem_applyMerge (m : MergeRule) :
    ∀ ids : List Nat, ∀ x ∈ applyMerge m ids, x = m.newId ∨ x ∈ ids
  | [] => by intro x hx; exact Or.inr hx
  | [_] => by intro x hx; exact Or.inr hx
  | a :: b :: rest => by
    intro x hx
    by_cases h : a = m.left ∧ b = m.right
    · simp only [applyMerge, if_pos h] at hx
      rcases List.mem_cons.mp hx with rfl | hx'
      · exact Or.inl rfl
      · rcases mem_applyMerge m rest x hx' with h1 | h1
        · exact Or.inl h1
        · exact Or.inr (by simp [h1])
    · simp only [applyMerge, if_neg h] at hx
      rcases List.mem_cons.mp hx with rfl | hx'
      · exact Or.inr (by simp)
      · rcases mem_applyMerge m (b :: rest) x hx' with h1 | h1
        · exact Or.inl h1
        · exact Or.inr (List.mem_cons_of_mem _ h1)

theorem bpeLoop_bound (t : Tokenizer) (hwf : t.wf) :
    ∀ (fuel : Nat) (ids : List Nat), (∀ i ∈ ids, i < t.size) →
      ∀ i ∈ bpeLoop t.merges fuel ids, i < t.size := by
  intro fuel
  induction fuel with
  | zero => intro ids h; exact h
  | succ fuel ih =>
    intro ids h
    rw [bpeLoop]
    cases hf : findRule t.merges ids with
    | none => exact h
    | some m =>
      apply ih
      intro i hi
      rcases mem_applyMerge m ids i hi with rfl | hi'
      · have hm : m ∈ t.merges := List.mem_of_find?_eq_some (by simpa [findRule] using hf)
        have h2 := (checkFrom_bounds t.merges t.base m hwf hm).2.1
        simp only [Tokenizer.size]
        exact h2
      · exact h i hi'

theorem toMerges_saveVocab (t : Tokenizer) : (saveVocab t).toMerges = t.merges := by
  simp only [saveVocab, Artifact.toMerges, List.map_map]
  exact List.map_id t.merges

/-! ### Lemmas: the Merge Learner -/

theorem mem_pairsOf : ∀ (c : List Nat) (p : Nat × Nat), p ∈ pairsOf c → p.1 ∈ c ∧ p.2 ∈ c
  | [], _, hp => by cases hp
  | [_], _, hp => by cases hp
  | a :: b :: rest, p, hp => by
    rcases List.mem_cons.mp hp with rfl | hp'
    · exact ⟨List.mem_cons_self _ _, List.mem_cons_of_mem _ (List.mem_cons_self _ _)⟩
    · have h := mem_pairsOf (b :: rest) p hp'
      exact ⟨List.mem_cons_of_mem _ h.1, List.mem_cons_of_mem _ h.2⟩

theorem betterPair_true {chunks : List (List Nat)} {p q : Nat × Nat}
    (h : betterPair chunks p q = true) : countPair chunks q ≤ countPair chunks p := by
  simp only [betterPair, decide_eq_true_eq] at h
  rcases h with h | h
  · omega
  · omega

theorem betterPair_false {chunks : List (List Nat)} {p q : Nat × Nat}
    (h : betterPair chunks p q = false) : countPair chunks p ≤ countPair chunks q := by
  simp only [betterPair, decide_eq_false_iff_not] at h
  push_neg at h
  exact h.1

theorem pickBest_spec (chunks : List (List Nat)) :
    ∀ (cands : List (Nat × Nat)) (b : Option (Nat × Nat)) (r : Nat × Nat),
      pickBest chunks b cands = some r →
      (r ∈ cands ∨ b = some r) ∧
        (∀ p ∈ cands, countPair chunks p ≤ countPair chunks r) ∧
        (∀ q, b = some q → countPair chunks q ≤ countPair chunks r) := by
  intro cands
  induction cands with
  | nil =>
    intro b r h
    cases b with
    | none => cases h
    | some q =>
      rw [pickBest, Option.some.injEq] at h
      subst h
      refine ⟨Or.inr rfl, ?_, ?_⟩
      · intro p hp; cases hp
      · intro q' hq'
        rw [Option.some.injEq] at hq'
        subst hq'
        exact Nat.le_refl _
  | cons p rest ih =>
    intro b r h
    cases b with
    | none =>
      rw [pickBest] at h
      obtain ⟨hmem, hmax, hb⟩ := ih (some p) r h
      refine ⟨?_, ?_, ?_⟩
      · rcases hmem with h1 | h1
        · exact Or.inl (List.mem_cons_of_mem _ h1)
        · exact Or.inl (by rw [Option.some.injEq] at h1; rw [h1]; exact List.mem_cons_self _ _)
      · intro p' hp'
        rcases List.mem_cons.mp hp' with rfl | hp''
        · exact hb p' rfl
        · exact hmax p' hp''
      · intro q hq; cases hq
    | some q =>
      rw [pickBest] at h
      obtain ⟨hmem, hmax, hb⟩ := ih (some (if betterPair chunks p q then p else q)) r h
      have hqle : countPair chunks q ≤
          countPair chunks (if betterPair chunks p q then p else q) := by
        by_cases hbp : betterPair chunks p q = true
        · rw [if_pos hbp]; exact betterPair_true hbp
        · rw [if_neg hbp]
      have hple : countPair chunks p ≤
          countPair chunks (if betterPair chunks p q then p else q) := by
        by_cases hbp : betterPair chunks p q = true
        · rw [if_pos hbp]
        · rw [if_neg hbp]
          exact betterPair_false (Bool.not_eq_true _ ▸ hbp)
      have hsel := hb (if betterPair chunks p q then p else q) rfl
      refine ⟨?_, ?_, ?_⟩
      · rcases hmem with h1 | h1
        · exact Or.inl (List.mem_cons_of_mem _ h1)
        · rw [Option.some.injEq] at h1
          by_cases hbp : betterPair chunks p q = true
          · rw [if_pos hbp] at h1
            exact Or.inl (h1 ▸ List.mem_cons_self _ _)
          · rw [if_neg hbp] at h1
            exact Or.inr (by rw [h1])
      · intro p' hp'
        rcases List.mem_cons.mp hp' with rfl | hp''
        · exact Nat.le_trans hple hsel
        · exact hmax p' hp''
      · intro q' hq'
        rw [Option.some.injEq] at hq'
        subst hq'
        exact Nat.le_trans hqle hsel

theorem pickBest_ne_none (chunks : List (List Nat)) :
    ∀ (cands : List (Nat × Nat)) (q : Nat × Nat),
      pickBest chunks (some q) cands ≠ none := by
  intro cands
  induction cands with
  | nil => intro q h; cases h
  | cons p rest ih =>
    intro q h
    rw [pickBest] at h
    exact ih _ h

theorem bestPair_none_allPairs {chunks : List (List Nat)}
    (h : bestPair chunks = none) : allPairs chunks = [] := by
  cases hc : allPairs chunks with
  | nil => rfl
  | cons p rest =>
    rw [bestPair, hc, pickBest] at h
    exact absurd h (pickBest_ne_none chunks rest p)

theorem countPair_eq_zero {chunks : List (List Nat)} {p : Nat × Nat}
    (h : p ∉ allPairs chunks) : countPair chunks p = 0 := by
  rw [countPair]
  apply List.sum_eq_zero
  intro x hx
  rcases List.mem_map.mp hx with ⟨c, hc, rfl⟩
  rw [List.count_eq_zero]
  intro hp
  exact h (List.mem_flatten.mpr ⟨pairsOf c, List.mem_map_of_mem _ hc, hp⟩)

theorem saturated_of_best_none {chunks : List (List Nat)}
    (hb : bestPair chunks = none) : ∀ q, countPair chunks q ≤ 1 := by
  intro q
  have hz : countPair chunks q = 0 :=
    countPair_eq_zero (by rw [bestPair_none_allPairs hb]; exact List.not_mem_nil q)
  omega

theorem saturated_of_best_le_one {chunks : List (List Nat)} {p : Nat × Nat}
    (hb : bestPair chunks = some p) (h1 : countPair chunks p ≤ 1) :
    ∀ q, countPair chunks q ≤ 1 := by
  intro q
  by_cases hq : q ∈ allPairs chunks
  · have := (pickBest_spec chunks (allPairs chunks) none p hb).2.1 q hq
    omega
  · have := countPair_eq_zero hq
    omega

theorem checkFrom_append_one : ∀ (acc : List MergeRule) (n : Nat) (m : MergeRule),
    checkFrom n acc = true → m.newId = n + acc.length →
    m.left < n + acc.length → m.right < n + acc.length →
    checkFrom n (acc ++ [m]) = true := by
  intro acc
  induction acc with
  | nil =>
    intro n m _ hid hl hr
    simp only [List.length_nil, Nat.add_zero] at hid hl hr
    simp [checkFrom, hid, hl, hr]
  | cons m0 rest ih =>
    intro n m hc hid hl hr
    rcases checkFrom_cons.mp hc with ⟨h0, h1, h2, h3⟩
    rw [List.cons_append]
    apply checkFrom_cons.mpr
    refine ⟨h0, h1, h2, ?_⟩
    apply ih (n + 1) m h3
    · simp only [List.length_cons] at hid; omega
    · simp only [List.length_cons] at hl; omega
    · simp only [List.length_cons] at hr; omega

theorem checkFrom_get : ∀ (merges : List MergeRule) (n : Nat),
    checkFrom n merges = true →
    ∀ (r : Nat) (h : r < merges.length),
      (merges.get ⟨r, h⟩).newId = n + r ∧
        (merges.get ⟨r, h⟩).left < n + r ∧ (merges.get ⟨r, h⟩).right < n + r := by
  intro merges
  induction merges with
  | nil => intro n _ r h; exact absurd h (Nat.not_lt_zero r)
  | cons m rest ih =>
    intro n hc r h
    rcases checkFrom_cons.mp hc with ⟨hid, hl, hr, hrest⟩
    cases r with
    | zero => simp only [List.get]; omega
    | succ r =>
      have hr' : r < rest.length := by simpa [Nat.succ_lt_succ_iff] using h
      have := ih (n + 1) hrest r hr'
      simp only [List.get] at this ⊢
      omega

theorem trainLoop_wf (base : Nat) :
    ∀ (fuel : Nat) (chunks : List (List Nat)) (acc : List MergeRule),
      (∀ c ∈ chunks, ∀ u ∈ c, u < base + acc.length) →
      checkFrom base acc = true →
      checkFrom base (trainLoop base fuel chunks acc).2 = true := by
  intro fuel
  induction fuel with
  | zero => intro chunks acc _ hacc; exact hacc
  | succ fuel ih =>
    intro chunks acc hch hacc
    cases hb : bestPair chunks with
    | none => simp only [trainLoop, hb]; exact hacc
    | some p =>
      by_cases h1 : countPair chunks p ≤ 1
      · simp only [trainLoop, hb]
        rw [if_pos h1]
        exact hacc
      · simp only [trainLoop, hb]
        rw [if_neg h1]
        have hmem : p ∈ allPairs chunks := by
          rcases (pickBest_spec chunks (allPairs chunks) none p hb).1 with h | h
          · exact h
          · cases h
        have hp12 : p.1 < base + acc.length ∧ p.2 < base + acc.length := by
          rcases List.mem_flatten.mp hmem with ⟨l, hl, hpl⟩
          rcases List.mem_map.mp hl with ⟨c, hc, rfl⟩
          have h2 := mem_pairsOf c p hpl
          exact ⟨hch c hc p.1 h2.1, hch c hc p.2 h2.2⟩
        apply ih
        · intro c hc u hu
          rcases List.mem_map.mp hc with ⟨c0, hc0, rfl⟩
          rcases mem_applyMerge _ c0 u hu with rfl | hu'
          · simp only [List.length_append, List.length_cons, List.length_nil]
            omega
          · have := hch c0 hc0 u hu'
            simp only [List.length_append, List.length_cons, List.length_nil]
            omega
        · exact checkFrom_append_one acc base ⟨p.1, p.2, base + acc.length⟩ hacc
            rfl hp12.1 hp12.2

theorem trainLoop_size (base : Nat) :
    ∀ (fuel : Nat) (chunks : List (List Nat)) (acc : List MergeRule),
      (trainLoop base fuel chunks acc).2.length = acc.length + fuel ∨
        ((trainLoop base fuel chunks acc).2.length < acc.length + fuel ∧
          ∀ p, countPair (trainLoop base fuel chunks acc).1 p ≤ 1) := by
  intro fuel
  induction fuel with
  | zero => intro chunks acc; left; rfl
  | succ fuel ih =>
    intro chunks acc
    cases hb : bestPair chunks with
    | none =>
      right
      simp only [trainLoop, hb]
      exact ⟨by simp, saturated_of_best_none hb⟩
    | some p =>
      by_cases h1 : countPair chunks p ≤ 1
      · right
        simp only [trainLoop, hb]
        rw [if_pos h1]
        exact ⟨by simp, saturated_of_best_le_one hb h1⟩
      · simp only [trainLoop, hb]
        rw [if_neg h1]
        rcases ih (chunks.map (applyMerge ⟨p.1, p.2, base + acc.length⟩))
            (acc ++ [⟨p.1, p.2, base + acc.length⟩]) with h | ⟨hlt, hsat⟩
        · left
          rw [h]
          simp only [List.length_append, List.length_cons, List.length_nil]
          omega
        · right
          refine ⟨?_, hsat⟩
          simp only [List.length_append, List.length_cons, List.length_nil] at hlt
          omega

/-! ### Lemmas: the color-assignment loop of `app.py` -/

theorem lookup_colorsFor_isSome : ∀ (off : Nat) (K : List Nat) (x : Nat),
    ((colorsFor off K).lookup x).isSome = true ↔ x ∈ K := by
  intro off K
  induction K generalizing off with
  | nil => intro x; simp [colorsFor]
  | cons k K ih =>
    intro x
    by_cases hk : x = k
    · subst hk; simp [colorsFor, List.lookup]
    · have hbeq : (x == k) = false := by simp [hk]
      simp [colorsFor, List.lookup, hbeq, hk, ih (off + 1)]

theorem lookup_colorsFor : ∀ (off : Nat) (K : List Nat) (x : Nat), x ∈ K →
    (colorsFor off K).lookup x =
      some (COLORS.getD ((off + K.indexOf x) % COLORS.length) "") := by
  intro off K
  induction K generalizing off with
  | nil => intro x hx; cases hx
  | cons k K ih =>
    intro x hx
    by_cases hk : x = k
    · subst hk
      simp [colorsFor, List.lookup]
    · have hx' : x ∈ K := by
        rcases List.mem_cons.mp hx with h | h
        · exact absurd h hk
        · exact h
      rw [colorsFor]
      have hbeq : (x == k) = false := by simp [hk]
      have hbeq2 : (k == x) = false := by
        simp only [beq_eq_false_iff_ne, ne_eq]
        intro h; exact hk h.symm
      have hlk : (((k, COLORS.getD (off % COLORS.length) "") ::
          colorsFor (off + 1) K).lookup x) = (colorsFor (off + 1) K).lookup x := by
        simp [List.lookup, hbeq]
      rw [hlk, ih (off + 1) x hx']
      have hidx : (k :: K).indexOf x = K.indexOf x + 1 := by
        simp [List.indexOf_cons, hbeq2]
      rw [hidx]
      have : off + 1 + K.indexOf x = off + (K.indexOf x + 1) := by omega
      rw [this]

theorem uniqueSeen_congr : ∀ (rest s1 s2 : List Nat),
    (∀ x, x ∈ s1 ↔ x ∈ s2) → uniqueSeen s1 rest = uniqueSeen s2 rest := by
  intro rest
  induction rest with
  | nil => intro _ _ _; rfl
  | cons t rest ih =>
    intro s1 s2 hs
    rw [uniqueSeen, uniqueSeen]
    by_cases ht : t ∈ s1
    · rw [if_pos ht, if_pos ((hs t).mp ht)]
      exact ih s1 s2 hs
    · rw [if_neg ht, if_neg (fun h => ht ((hs t).mpr h))]
      have := ih (t :: s1) (t :: s2) (by intro x; simp [hs x])
      rw [this]

theorem colorsFor_append_one : ∀ (off : Nat) (K : List Nat) (x : Nat),
    colorsFor off (K ++ [x]) =
      colorsFor off K ++
        [(x, COLORS.getD ((off + K.length) % COLORS.length) "")] := by
  intro off K
  induction K generalizing off with
  | nil => intro x; simp [colorsFor]
  | cons k K ih =>
    intro x
    rw [List.cons_append, colorsFor, colorsFor, ih (off + 1), List.cons_append]
    have : off + 1 + K.length = off + (k :: K).length := by simp; omega
    rw [this]

theorem assignColors_colorsFor : ∀ (rest K : List Nat),
    assignColors rest (colorsFor 0 K) K.length =
      colorsFor 0 (K ++ uniqueSeen K rest) := by
  intro rest
  induction rest with
  | nil => intro K; simp [assignColors, uniqueSeen]
  | cons t rest ih =>
    intro K
    rw [assignColors, uniqueSeen]
    by_cases ht : t ∈ K
    · rw [if_pos ((lookup_colorsFor_isSome 0 K t).mpr ht), if_pos ht, ih K]
    · rw [if_neg (by
          intro hcontra
          exact ht ((lookup_colorsFor_isSome 0 K t).mp hcontra)),
        if_neg ht]
      have hacc : colorsFor 0 K ++
          [(t, COLORS.getD (K.length % COLORS.length) "")] =
            colorsFor 0 (K ++ [t]) := by
        rw [colorsFor_append_one]
        simp
      have hlen : K.length + 1 = (K ++ [t]).length := by simp
      rw [hacc, hlen, ih (K ++ [t]),
        uniqueSeen_congr rest (K ++ [t]) (t :: K) (by intro x; simp; tauto)]
      simp

theorem tokenIdToColor_eq (ids : List Nat) :
    tokenIdToColor ids = colorsFor 0 (uniqueOrder ids) := by
  have h := assignColors_colorsFor ids []
  simpa [tokenIdToColor, colorsFor, uniqueOrder] using h

theorem mem_uniqueSeen : ∀ (ids seen : List Nat) (x : Nat), x ∈ ids → x ∉ seen →
    x ∈ uniqueSeen seen ids := by
  intro ids
  induction ids with
  | nil => intro seen x hx _; cases hx
  | cons t rest ih =>
    intro seen x hx hxs
    rw [uniqueSeen]
    by_cases ht : t ∈ seen
    · rw [if_pos ht]
      rcases List.mem_cons.mp hx with rfl | hx'
      · exact absurd ht hxs
      · exact ih seen x hx' hxs
    · rw [if_neg ht]
      rcases List.mem_cons.mp hx with rfl | hx'
      · exact List.mem_cons_self _ _
      · by_cases hxt : x = t
        · subst hxt; exact List.mem_cons_self _ _
        · exact List.mem_cons_of_mem _ (ih (t :: seen) x hx' (by simp [hxt, hxs]))

/-! ### Claim theorems -/

/-- C3: for every text, segmentation with the fixed pattern is
lossless: the chunks are ordered, non-overlapping, their concatenation
equals the text exactly (so every character belongs to exactly one
chunk), and no empty chunk is produced. -/
theorem segment_lossless (x : List Nat) :
    (segment x).flatten = x ∧ ∀ c ∈ segment x, c ≠ [] :=
  ⟨segment_flatten x, segment_ne_nil x⟩

/-- C1: for every well-formed tokenizer and every text over the atomic
unit space of the Base Alphabet, decoding the id sequence produced by
`encode` yields exactly the original text. -/
theorem decode_encode_roundtrip (t : Tokenizer) (hwf : t.wf) (x : List Nat)
    (hx : ∀ u ∈ x, u < t.base) : t.decode (t.encode x) = x := by
  have hchunks : ∀ c ∈ segment x, ∀ u ∈ c, u < t.base := by
    intro c hc u hu
    exact hx u (by rw [← segment_flatten x]; exact List.mem_flatten.mpr ⟨c, hc, hu⟩)
  rw [Tokenizer.encode, decode_encodeChunks t hwf (segment x) hchunks, segment_flatten]

/-- C2: for every text, `encode(text)` equals the concatenation, in
chunk order, of the per-chunk encodings `_apply_bpe(c)` over the chunks
produced by the segmentation pattern; consequently every token id
appearing in a per-chunk encoding also appears in `encode`'s output. -/
theorem encode_concat_of_chunks (t : Tokenizer) (x : List Nat) :
    t.encode x = ((segment x).map t.applyBpe).flatten ∧
      ∀ c ∈ segment x, ∀ i ∈ t.applyBpe c, i ∈ t.encode x := by
  refine ⟨encodeChunks_eq_flatten t (segment x), ?_⟩
  intro c hc i hi
  rw [Tokenizer.encode, encodeChunks_eq_flatten]
  exact List.mem_flatten.mpr ⟨t.applyBpe c, List.mem_map_of_mem _ hc, hi⟩

/-- C4: encoding never fails: for every well-formed tokenizer and
every text over the atomic-unit space (including units that appear in
no merge rule, i.e. symbols never seen during training), `encode` is a
total function and every id it emits is a valid vocabulary id. -/
theorem encode_never_fails (t : Tokenizer) (hwf : t.wf) (x : List Nat)
    (hx : ∀ u ∈ x, u < t.base) : ∀ i ∈ t.encode x, i < t.size := by
  intro i hi
  rw [Tokenizer.encode, encodeChunks_eq_flatten] at hi
  rcases List.mem_flatten.mp hi with ⟨l, hl, hil⟩
  rcases List.mem_map.mp hl with ⟨c, hc, rfl⟩
  rw [Tokenizer.applyBpe] at hil
  refine bpeLoop_bound t hwf c.length c ?_ i hil
  intro u hu
  have hux : u ∈ x := by
    rw [← segment_flatten x]; exact List.mem_flatten.mpr ⟨c, hc, hu⟩
  have := hx u hux
  simp only [Tokenizer.size]
  omega

/-- Witness for C4: the digit 48 and letter 122, neither of which
occurs in `tokA`'s merge table, encode to valid vocabulary ids. -/
theorem encode_never_fails_witness :
    tokA.wf ∧ (∀ u ∈ [122, 48], u < tokA.base) ∧
      122 ∈ tokA.encode [122, 48] ∧ 122 < tokA.size :=
  ⟨by rfl, by decide, by decide,
    encode_never_fails tokA (by rfl) [122, 48] (by decide) 122 (by decide)⟩

/-- C5: loading the artifact written by save yields a tokenizer equal
to the saved one: same base, same id-to-text mapping over the same
contiguous id space, same merge rules in the same rank order. -/
theorem load_save_roundtrip (t : Tokenizer) (hwf : t.wf) :
    loadArtifact (saveVocab t) = .ok t := by
  have hm : (saveVocab t).toMerges = t.merges := toMerges_saveVocab t
  have hvalid : (saveVocab t).valid = true := by
    rw [Artifact.valid, hm]
    simp only [Bool.and_eq_true, decide_eq_true_eq]
    exact ⟨hwf, rfl⟩
  rw [loadArtifact, if_pos hvalid]
  rw [show (saveVocab t).base = t.base from rfl, hm]

/-- Witness for C5: the persistence round trip at a concrete
one-merge tokenizer. -/
theorem load_save_roundtrip_witness :
    tokA.wf ∧ loadArtifact (saveVocab tokA) = .ok tokA :=
  ⟨by rfl, load_save_roundtrip tokA (by rfl)⟩

/-- C6: loading reports the distinct not-found condition exactly when
no file exists at the path, and the distinct corrupt condition exactly
when a file exists but fails validation; the two conditions are never
conflated. -/
theorem load_error_discrimination (fs : String → Option Artifact) (path : String) :
    (loadVocabFrom fs path = .error .notFound ↔ fs path = none) ∧
      (loadVocabFrom fs path = .error .corrupt ↔
        ∃ a, fs path = some a ∧ a.valid = false) := by
  cases hf : fs path with
  | none => simp [loadVocabFrom, hf]
  | some a =>
    by_cases hv : a.valid = true
    · simp [loadVocabFrom, hf, loadArtifact, hv]
    · simp only [Bool.not_eq_true] at hv
      simp [loadVocabFrom, hf, loadArtifact, hv]

/-- C9: on input whose strip() is empty (empty or whitespace-only),
`tokenize_and_visualize` returns the three fixed gray placeholder
strings, and its result does not depend on the tokenizer at all (the
tokenizer is never invoked on such input). -/
theorem blank_input_placeholders (t : Tokenizer) (text : List Nat)
    (h : pyStrip text = []) :
    tokenize_and_visualize t text =
        (placeholderTokens, placeholderCount, placeholderIds) ∧
      ∀ t' : Tokenizer, tokenize_and_visualize t' text = tokenize_and_visualize t text := by
  have he : (pyStrip text).isEmpty = true := by rw [h]; rfl
  constructor
  · rw [tokenize_and_visualize, if_pos he]
  · intro t'
    rw [tokenize_and_visualize, if_pos he, tokenize_and_visualize, if_pos he]

/-- Witness for C9: a whitespace-only input — including the Unicode
no-break space U+00A0 and ideographic space U+3000, which Python's
`strip()` removes — produces the placeholder triple. -/
theorem blank_input_placeholders_witness :
    pyStrip [32, 0xA0, 0x3000, 10] = [] ∧
      tokenize_and_visualize tokA [32, 0xA0, 0x3000, 10] =
        (placeholderTokens, placeholderCount, placeholderIds) :=
  ⟨by decide, (blank_input_placeholders tokA [32, 0xA0, 0x3000, 10] (by decide)).1⟩

/-- C10 (amended): within a `tokenize_and_visualize` call, color
assignment is a function of token id — every occurrence of the same
token id receives the same color — and a token id's color is
`COLORS[k mod 20]` where `k` is the number of distinct token ids
occurring before that id's first occurrence in `encode(text)`'s
output, i.e. the id's index in the list of distinct ids ordered by
first occurrence (not its raw position in the output). -/
theorem color_of_token_id (t : Tokenizer) (text : List Nat) (tid : Nat)
    (h : tid ∈ t.encode text) :
    (tokenIdToColor (t.encode text)).lookup tid =
      some (COLORS.getD
        ((uniqueOrder (t.encode text)).indexOf tid % COLORS.length) "") := by
  rw [tokenIdToColor_eq]
  have hm : tid ∈ uniqueOrder (t.encode text) :=
    mem_uniqueSeen (t.encode text) [] tid h (by simp)
  have hl := lookup_colorsFor 0 (uniqueOrder (t.encode text)) tid hm
  simpa using hl

/-- Witness for C10: in the encoding of `[97, 98, 97]` by `tokA`
(which is `[256, 97]`), id 97 is the second distinct id and receives
the second palette color. -/
theorem color_of_token_id_witness :
    97 ∈ tokA.encode [97, 98, 97] ∧
      (tokenIdToColor (tokA.encode [97, 98, 97])).lookup 97 =
        some (COLORS.getD
          ((uniqueOrder (tokA.encode [97, 98, 97])).indexOf 97 % COLORS.length) "") :=
  ⟨by decide, color_of_token_id tokA [97, 98, 97] 97 (by decide)⟩

/-- Counterexample for C10 as stated: `tokA.encode [99, 99, 100]` is
`[99, 99, 100]`; the first occurrence of id 100 sits at position 2 of
the output, so the claim predicts `COLORS[2]`, but the code assigns
`COLORS[1]` because only one distinct id precedes it. -/
theorem color_claim_counterexample :
    ¬ (tokenIdToColor (tokA.encode [99, 99, 100])).lookup 100 =
      some (COLORS.getD
        ((tokA.encode [99, 99, 100]).indexOf 100 % COLORS.length) "") := by
  decide

/-- C7: for every corpus and target size `V ≥ base`, training
terminates with a tokenizer whose size never exceeds `V` and equals
`V` unless the loop saturated early, in which case no adjacent pair
occurs more than once in the final chunk state (each loop iteration
appends exactly one merge rule, so the vocabulary grows by exactly one
id per iteration). -/
theorem train_size (base vocabSize : Nat) (corpus : List Nat)
    (hV : base ≤ vocabSize) :
    ∃ (t : Tokenizer) (chunksF : List (List Nat)),
      train base corpus vocabSize = .ok t ∧
        trainFull base corpus vocabSize = .ok (chunksF, t.merges) ∧
        t.size ≤ vocabSize ∧
        (t.size = vocabSize ∨
          (t.size < vocabSize ∧ ∀ p, countPair chunksF p ≤ 1)) := by
  have hnV : ¬ vocabSize < base := by omega
  refine ⟨⟨base, (trainLoop base (vocabSize - base) (segment corpus) []).2⟩,
    (trainLoop base (vocabSize - base) (segment corpus) []).1, ?_, ?_, ?_, ?_⟩
  · rw [train, trainFull, if_neg hnV]
    rfl
  · rw [trainFull, if_neg hnV]
  · rcases trainLoop_size base (vocabSize - base) (segment corpus) [] with h | ⟨h, _⟩
    · simp only [List.length_nil, Nat.zero_add] at h
      simp only [Tokenizer.size, h]
      omega
    · simp only [List.length_nil, Nat.zero_add] at h
      simp only [Tokenizer.size]
      omega
  · rcases trainLoop_size base (vocabSize - base) (segment corpus) [] with h | ⟨h, hsat⟩
    · left
      simp only [List.length_nil, Nat.zero_add] at h
      simp only [Tokenizer.size, h]
      omega
    · right
      refine ⟨?_, hsat⟩
      simp only [List.length_nil, Nat.zero_add] at h
      simp only [Tokenizer.size]
      omega

/-- Witness for C7: training over the toy corpus with target size 5
(one merge beyond the 4-symbol base alphabet). -/
theorem train_size_witness :
    4 ≤ 5 ∧ ∃ (t : Tokenizer) (chunksF : List (List Nat)),
      train 4 corpusB 5 = .ok t ∧
        trainFull 4 corpusB 5 = .ok (chunksF, t.merges) ∧
        t.size ≤ 5 ∧
        (t.size = 5 ∨ (t.size < 5 ∧ ∀ p, countPair chunksF p ≤ 1)) :=
  ⟨by decide, train_size 4 5 corpusB (by decide)⟩

/-- C8: in every trained vocabulary, the merge rule at rank `r` has
`new_id = base + r` (so `new_id` strictly increases with rank), and
both constituent ids of each rule already exist when the rule is
defined (each is below `base + r`, i.e. a base id or the `new_id` of a
strictly lower-ranked rule). -/
theorem train_rank_monotone (base vocabSize : Nat) (corpus : List Nat)
    (t : Tokenizer) (hcorpus : ∀ u ∈ corpus, u < base)
    (ht : train base corpus vocabSize = .ok t) :
    ∀ (r : Nat) (h : r < t.merges.length),
      (t.merges.get ⟨r, h⟩).newId = t.base + r ∧
        (t.merges.get ⟨r, h⟩).left < t.base + r ∧
        (t.merges.get ⟨r, h⟩).right < t.base + r := by
  rw [train, trainFull] at ht
  by_cases hV : vocabSize < base
  · rw [if_pos hV] at ht
    cases ht
  · rw [if_neg hV] at ht
    simp only [Except.map] at ht
    rw [Except.ok.injEq] at ht
    subst ht
    have hwf : checkFrom base
        (trainLoop base (vocabSize - base) (segment corpus) []).2 = true := by
      apply trainLoop_wf
      · intro c hc u hu
        have hux : u ∈ corpus := by
          rw [← segment_flatten corpus]
          exact List.mem_flatten.mpr ⟨c, hc, hu⟩
        simpa using hcorpus u hux
      · rfl
    intro r h
    exact checkFrom_get _ base hwf r h

/-- Witness for C8: the single rule learned from the toy corpus sits
at rank 0 with `new_id = 4 + 0` and constituents below it. -/
theorem train_rank_monotone_witness :
    (∀ u ∈ corpusB, u < 4) ∧ train 4 corpusB 5 = .ok tokB ∧
      0 < tokB.merges.length ∧
      (tokB.merges.get ⟨0, by decide⟩).newId = tokB.base + 0 ∧
        (tokB.merges.get ⟨0, by decide⟩).left < tokB.base + 0 ∧
        (tokB.merges.get ⟨0, by decide⟩).right < tokB.base + 0 :=
  ⟨by decide, by rfl, by decide,
    train_rank_monotone 4 5 corpusB tokB (by decide) (by rfl) 0 (by decide)⟩

/-- Witness for C1: a concrete round trip through a one-merge
tokenizer. -/
theorem decode_encode_roundtrip_witness :
    tokA.wf ∧ (∀ u ∈ [97, 98, 97], u < tokA.base) ∧
      tokA.decode (tokA.encode [97, 98, 97]) = [97, 98, 97] :=
  ⟨by rfl, by decide, decode_encode_roundtrip tokA (by rfl) _ (by decide)⟩

end KnBpe
